import Mathlib

/-!
Shallow embedding of the snapshot-homing simulator (`src/main.rs`) and proofs
about its core algorithms: the circular image builder, the segment merge, the
segment matching step and the homing-vector synthesis.

Modelling conventions:
* `f32` values are modelled as real numbers (`ℝ`); `f32` trigonometry becomes
  the exact real functions (`Real.sin`, `Real.cos`, `Real.arcsin`,
  `Complex.arg` for `atan2`).
* `Vec2<f32>` is modelled as `ℝ × ℝ` (component `data[0]` is `.1`,
  `data[1]` is `.2`); `Vec2<i32>` as `ℤ × ℤ`.
* Rust panics (indexing an empty `Vec`, `Option::unwrap` on `None`) are
  modelled by returning `none` from an `Option`-valued function; the doc
  comment of each such function states which panic the `none` stands for.
* `Vec::sort_unstable_by` on the bisector key is modelled by
  `List.insertionSort`; on the concrete inputs appearing in the theorems below
  all keys are distinct, so both produce the unique sorted order, and the
  general theorems only use that sorting permutes the list.
-/

open Real

open Classical

noncomputable section

namespace Homing

/-- Rust `Vec2<f32>`: `data[0]` is the first component, `data[1]` the second. -/
abbrev Vec2R : Type := ℝ × ℝ

/-- Rust `Vec2<i32>`. -/
abbrev Vec2Z : Type := ℤ × ℤ

/-- Rust `impl Into<Vec2<f32>> for Vec2<i32>`: componentwise cast. -/
def Vec2Z.toR (p : Vec2Z) : Vec2R := ((p.1 : ℝ), (p.2 : ℝ))

/-- Rust `Vec2::len`: `(vec[0]*vec[0] + vec[1]*vec[1]).sqrt()`. -/
def Vec2R.len (v : Vec2R) : ℝ := Real.sqrt (v.1 * v.1 + v.2 * v.2)

/-- Rust `Vec2::normalized`: divides both components by the length.
The source has no zero-length guard; in `f32` a zero-length input produces
`0.0 / 0.0 = NaN` in both components.  In this real-valued model division by
zero yields `0`, so NaN production is captured separately by the predicate
`v.len = 0` (see the C9 theorem). -/
def Vec2R.normalized (v : Vec2R) : Vec2R := (v.1 / v.len, v.2 / v.len)

/-- Rust `f32::atan2`: `y.atan2(x)` is the argument of the complex number
`x + y i`, with values in `(-π, π]`. -/
def atan2 (y x : ℝ) : ℝ := Complex.arg ⟨x, y⟩

/-- Rust `impl Distance for f32`: `(b - a).sin().atan2((b - a).cos())`,
the signed circular distance from `a` to `b`. -/
def fdist (a b : ℝ) : ℝ := atan2 (Real.sin (b - a)) (Real.cos (b - a))

/-- Rust `struct Segment`: `color` is `true` for OCCLUDED (black),
`false` for BACKGROUND (white). -/
structure Segment where
  bisector : ℝ
  width : ℝ
  color : Bool

/-- Rust `impl Distance for Segment`: distance between the two bisectors. -/
def Segment.dist (s other : Segment) : ℝ := fdist s.bisector other.bisector

/-- Rust `struct Image`. -/
structure Image where
  segments : List Segment

/-- Rust `struct Circle` (the only `Obstacle` implementor in the program). -/
structure Circle where
  position : Vec2R
  radius : ℝ

/-- Rust `struct Bee`. -/
structure Bee where
  snapshot : Image
  position : Vec2Z

/-- Rust `Segment::collides`: returns `false` iff the absolute circular
distance of the bisectors exceeds half the sum of the widths. -/
def Segment.collides (s other : Segment) : Prop :=
  ¬ (|Segment.dist s other| > s.width / 2 + other.width / 2)

/-- Strict-threshold variant of `Segment.collides`, formalizing "the two
segments overlap": the absolute circular distance of the bisectors is
strictly below half the sum of the widths.  Segments of a proper partition
that merely touch at a shared edge satisfy `collides` but not `overlaps`. -/
def Segment.overlaps (s other : Segment) : Prop :=
  |Segment.dist s other| < s.width / 2 + other.width / 2

/-- The `let vec = self.position - position;` of Rust `Circle::map`: the
vector from the (cast) viewpoint to the circle center. -/
def viewVec (c : Circle) (p : Vec2Z) : Vec2R := c.position - Vec2Z.toR p

/-- Rust `Circle::map` (the `Obstacle` impl): `none` models the Rust `None`
returned when the viewpoint is strictly inside the circle. -/
def Circle.map (c : Circle) (position : Vec2Z) : Option Segment :=
  let vec := viewVec c position
  if Vec2R.len vec ≥ c.radius then
    let b0 := atan2 vec.2 vec.1
    let bis := if b0 < 0 then 2 * π + b0 else b0
    some { bisector := bis, width := Real.arcsin (c.radius / Vec2R.len vec) * 2,
           color := true }
  else
    none

/-! ### Segment merge (`Segment::merge` and the merge loop of `Image::new`) -/

/-- One iteration of the `for segment in segments` loop inside `Segment::merge`.
The accumulator carries the running `merged` segment and the `separated` list.
When the segment collides, the edge pair of `merged` is extended by the Rust
three-case edge-union rule and `merged` is rebuilt from the resulting edges;
otherwise the segment is appended to `separated`. -/
def Segment.mergeStep (acc : Segment × List Segment) (segment : Segment) :
    Segment × List Segment :=
  let merged := acc.1
  if Segment.collides merged segment then
    let me0 := merged.bisector - merged.width / 2
    let me1 := merged.bisector + merged.width / 2
    let oe0 := segment.bisector - segment.width / 2
    let oe1 := segment.bisector + segment.width / 2
    let e : ℝ × ℝ :=
      if oe0 > me1 ∧ oe0 > me0 ∧ oe1 > me1 then (me0, oe1)
      else if oe0 < me1 ∧ oe0 < me0 ∧ oe1 < me1 then (oe0, me1)
      else if oe0 < me0 ∧ oe1 > me1 then (oe0, oe1)
      else (me0, me1)
    ({ merged with bisector := (e.1 + e.2) / 2, width := e.2 - e.1 }, acc.2)
  else
    (merged, acc.2 ++ [segment])

/-- Rust `Segment::merge`: folds `mergeStep` over the given segments starting
from `check_with` and an empty `separated` list. -/
def Segment.merge (check_with : Segment) (segments : List Segment) :
    Segment × List Segment :=
  segments.foldl Segment.mergeStep (check_with, [])

/-- The `while !segments.is_empty()` merge loop of `Image::new`: repeatedly
takes the head as the pivot, merges every colliding remaining segment into it
and recurses on the separated rest. -/
def mergeLoop : List Segment → List Segment
  | [] => []
  | s :: rest =>
    (Segment.merge s rest).1 :: mergeLoop (Segment.merge s rest).2
termination_by l => l.length
decreasing_by
  simp only [List.length_cons]
  have key : ∀ (l : List Segment) (acc : Segment × List Segment),
      (l.foldl Segment.mergeStep acc).2.length ≤ acc.2.length + l.length := by
    intro l
    induction l with
    | nil =>
      intro acc
      simp
    | cons a t ih =>
      intro acc
      rw [List.foldl_cons]
      refine le_trans (ih _) ?_
      have hstep : (Segment.mergeStep acc a).2.length ≤ acc.2.length + 1 := by
        unfold Segment.mergeStep
        by_cases h : Segment.collides acc.1 a
        · simp [h]
        · simp [h]
      simp only [List.length_cons]
      omega
  have hkey := key rest (s, [])
  simp only [List.length_nil] at hkey
  unfold Segment.merge
  omega

/-! ### Background fill and the image builder (`Image::new`) -/

/-- Start edge `bisector - width / 2` of a segment. -/
def startEdge (s : Segment) : ℝ := s.bisector - s.width / 2

/-- End edge `bisector + width / 2` of a segment. -/
def endEdge (s : Segment) : ℝ := s.bisector + s.width / 2

/-- Construction of one BACKGROUND segment in the fill loop of `Image::new`:
spans from the end edge of the previous segment to the start edge of the
current one, with the bisector pushed into `[0, 2π)` when negative. -/
def mkBackground (edge_prev : ℝ) (s : Segment) : Segment :=
  let self_edge := startEdge s
  let nb := (edge_prev + self_edge) / 2
  { bisector := if nb < 0 then nb + 2 * π else nb,
    width := self_edge - edge_prev,
    color := false }

/-- The previous-end-edge value used at each index of the fill loop: at index
0 the end edge of the last segment minus `2π`, at index `i > 0` the end edge
of segment `i - 1`. -/
def prevEdges : List Segment → List ℝ
  | [] => []
  | s :: rest =>
    (endEdge (List.getLast (s :: rest) (List.cons_ne_nil s rest)) - 2 * π)
      :: (s :: rest).dropLast.map endEdge

/-- The fill loop of `Image::new`: one BACKGROUND segment per merged segment. -/
def fillBackground (ms : List Segment) : List Segment :=
  List.zipWith mkBackground (prevEdges ms) ms

/-- Rust `sort_unstable_by` on the bisector (the comparator
`a.bisector.partial_cmp(&b.bisector).unwrap()`). -/
def sortByBisector (l : List Segment) : List Segment :=
  List.insertionSort (fun a b => a.bisector ≤ b.bisector) l

/-- Rust `Image::new`.  `none` models the Rust panic: when no obstacle
produces a segment, the merge loop indexes `segments[0]` on an empty `Vec`.
Obstacles are `List Circle` because `Circle` is the only `Obstacle`
implementor in the program. -/
def Image.new (position : Vec2Z) (obstacles : List Circle) : Option Image :=
  let segments := obstacles.filterMap (fun o => Circle.map o position)
  if segments.isEmpty then
    none
  else
    let merged := sortByBisector (mergeLoop segments)
    some ⟨sortByBisector (merged ++ fillBackground merged)⟩

/-! ### Homing engine (`Bee::home`) -/

/-- The matching step of `Bee::home` for one snapshot segment: start from the
first same-color retina segment (Rust `find_map`), then scan every retina
segment, replacing the best match when the absolute distance from the snapshot
segment is strictly smaller and the color matches.  `none` models the Rust
panic: the `.unwrap()` on the `find_map` result when the retina holds no
segment of the required color. -/
def matchStep (ss best r : Segment) : Segment :=
  if |Segment.dist ss r| < |Segment.dist ss best| ∧ r.color = ss.color then r
  else best

/-- See `matchSeg`: `matchStep` above is the body of its scan loop (Rust:
replace `best_match_so_far` when the distance is strictly smaller and the
color matches). -/
def matchSeg (ss : Segment) (retina : List Segment) : Option Segment :=
  match retina.find? (fun s => s.color == ss.color) with
  | none => none
  | some first => some (retina.foldl (matchStep ss) first)

/-- The full matching pass of `Bee::home`: one (snapshot, best match) pair per
snapshot segment, in snapshot order.  `none` models the Rust unwrap panic
inside `matchSeg` (raised at the first snapshot segment with no same-color
retina candidate). -/
def matched? : List Segment → List Segment → Option (List (Segment × Segment))
  | [], _ => some []
  | s :: rest, retina =>
    (matchSeg s retina).bind
      (fun m => (matched? rest retina).map (fun ps => (s, m) :: ps))

/-- One iteration of the turning-vector loop of `Bee::home`. -/
def turningStep (tv : Vec2R) (pr : Segment × Segment) : Vec2R :=
  let snap := pr.1
  let ret := pr.2
  let d0 : ℝ := if Segment.dist ret snap < 0 then -1 else 1
  let diff : ℝ := if ret.width > π then -d0 else d0
  let vec : Vec2R := (Real.cos (ret.bisector - π / 2) * diff,
                      Real.sin (ret.bisector - π / 2) * diff)
  tv + vec.normalized

/-- The accumulated `turning_vec` of `Bee::home`. -/
def turningVec (matched : List (Segment × Segment)) : Vec2R :=
  matched.foldl turningStep (0, 0)

/-- One iteration of the positioning-vector loop of `Bee::home`. -/
def positioningStep (pv : Vec2R) (pr : Segment × Segment) : Vec2R :=
  let snap := pr.1
  let ret := pr.2
  let diff : ℝ := if snap.width > ret.width then 1 else -1
  let vec : Vec2R := (Real.cos ret.bisector * diff, Real.sin ret.bisector * diff)
  pv + vec.normalized

/-- The accumulated `positioning_vec` of `Bee::home`. -/
def positioningVec (matched : List (Segment × Segment)) : Vec2R :=
  matched.foldl positioningStep (0, 0)

/-- Rust `Bee::home`, as a function of the snapshot image and the freshly
built retina image (in the source the retina is `Image::new(self.position,
&world.obstacles)`).  `none` models the unwrap panic of the matching step. -/
def Bee.home (snapshot retina : Image) : Option Vec2R :=
  (matched? snapshot.segments retina.segments).map
    (fun matched =>
      Vec2R.normalized (turningVec matched + (3 : ℝ) • positioningVec matched))

/-- Modelled from the spec (refinement comparison for C2): the turning
contribution of one matched (snapshot, retina) pair, in the spec's words: the
normalized vector (cos(b − π/2), sin(b − π/2)) · sign with b the matched
retina segment's bisector; sign is −1 when the signed circular distance from
the retina segment to the snapshot segment is negative, +1 otherwise, flipped
again when the retina segment's width exceeds π. -/
def specTurningTerm (pr : Segment × Segment) : Vec2R :=
  let sign0 : ℝ := if Segment.dist pr.2 pr.1 < 0 then -1 else 1
  let sign : ℝ := if pr.2.width > π then -sign0 else sign0
  Vec2R.normalized
    (sign • ((Real.cos (pr.2.bisector - π / 2),
              Real.sin (pr.2.bisector - π / 2)) : Vec2R))

/-- Modelled from the spec (refinement comparison for C2): the positioning
contribution of one matched pair: the normalized vector (cos b, sin b) · sign
with b the matched retina segment's bisector; sign is +1 when the snapshot
segment is wider than the retina segment, −1 otherwise. -/
def specPositioningTerm (pr : Segment × Segment) : Vec2R :=
  let sign : ℝ := if pr.1.width > pr.2.width then 1 else -1
  Vec2R.normalized
    (sign • ((Real.cos pr.2.bisector, Real.sin pr.2.bisector) : Vec2R))

/-! ### Characterization of the circular distance primitive -/

theorem atan2_polar {r : ℝ} (hr : 0 < r) (θ : ℝ) :
    atan2 (r * Real.sin θ) (r * Real.cos θ) = toIocMod Real.two_pi_pos (-π) θ := by
  unfold atan2
  have h : (⟨r * Real.cos θ, r * Real.sin θ⟩ : ℂ)
      = (r : ℂ) * (Complex.cos θ + Complex.sin θ * Complex.I) := by
    apply Complex.ext
    · simp [Complex.cos_ofReal_re]
    · simp [Complex.sin_ofReal_re]
  rw [h]
  exact Complex.arg_mul_cos_add_sin_mul_I_eq_toIocMod hr θ

theorem fdist_eq_toIocMod (a b : ℝ) :
    fdist a b = toIocMod Real.two_pi_pos (-π) (b - a) := by
  have h := atan2_polar one_pos (b - a)
  simpa using h

/-- Reduction of `toIocMod` for arguments already in `(-π, π]`. -/
theorem toIoc_self {x : ℝ} (h1 : -π < x) (h2 : x ≤ π) :
    toIocMod Real.two_pi_pos (-π) x = x := by
  refine (toIocMod_eq_self _).mpr ⟨h1, ?_⟩
  linarith

/-- Reduction of `toIocMod` across one full turn. -/
theorem toIoc_add_two_pi (x : ℝ) :
    toIocMod Real.two_pi_pos (-π) (x + 2 * π) = toIocMod Real.two_pi_pos (-π) x := by
  have h := toIocMod_add_zsmul Real.two_pi_pos (-π) x (1 : ℤ)
  simp only [one_zsmul] at h
  exact h

theorem fdist_self_in_Ioc (a b : ℝ) : fdist a b ∈ Set.Ioc (-π) π := by
  rw [fdist_eq_toIocMod]
  have h := toIocMod_mem_Ioc Real.two_pi_pos (-π) (b - a)
  constructor
  · exact h.1
  · have := h.2
    linarith

/-- Unfolding lemma for `Image.new`. -/
theorem image_new_eq (position : Vec2Z) (obstacles : List Circle) :
    Image.new position obstacles =
      if (obstacles.filterMap (fun o => Circle.map o position)).isEmpty then none
      else some ⟨sortByBisector
        (sortByBisector (mergeLoop (obstacles.filterMap (fun o => Circle.map o position))) ++
         fillBackground
           (sortByBisector (mergeLoop (obstacles.filterMap (fun o => Circle.map o position)))))⟩ :=
  rfl

/-! ### Concrete evaluation helpers -/

theorem fdist_eval_mid (a b : ℝ) (h1 : -π < b - a) (h2 : b - a ≤ π) :
    fdist a b = b - a := by
  rw [fdist_eq_toIocMod]
  exact toIoc_self h1 h2

theorem fdist_eval_lo (a b : ℝ) (h1 : -π < b - a + 2 * π) (h2 : b - a + 2 * π ≤ π) :
    fdist a b = b - a + 2 * π := by
  rw [fdist_eq_toIocMod, ← toIoc_add_two_pi (b - a)]
  exact toIoc_self h1 h2

theorem fdist_eval_hi (a b : ℝ) (h1 : -π < b - a - 2 * π) (h2 : b - a - 2 * π ≤ π) :
    fdist a b = b - a - 2 * π := by
  rw [fdist_eq_toIocMod]
  have h := toIoc_add_two_pi (b - a - 2 * π)
  have e : b - a - 2 * π + 2 * π = b - a := by ring
  rw [e] at h
  rw [h]
  exact toIoc_self h1 h2

theorem atan2_eval (y x r θ : ℝ) (hr : 0 < r) (hx : x = r * Real.cos θ)
    (hy : y = r * Real.sin θ) (h1 : -π < θ) (h2 : θ ≤ π) : atan2 y x = θ := by
  subst hx
  subst hy
  rw [atan2_polar hr θ]
  exact toIoc_self h1 h2

theorem circle_map_of_ge (c : Circle) (p : Vec2Z)
    (h : c.radius ≤ Vec2R.len (viewVec c p)) :
    Circle.map c p = some
      { bisector := if atan2 (viewVec c p).2 (viewVec c p).1 < 0
                    then 2 * π + atan2 (viewVec c p).2 (viewVec c p).1
                    else atan2 (viewVec c p).2 (viewVec c p).1,
        width := Real.arcsin (c.radius / Vec2R.len (viewVec c p)) * 2,
        color := true } := by
  unfold Circle.map
  rw [if_pos h]

theorem circle_map_of_lt (c : Circle) (p : Vec2Z)
    (h : Vec2R.len (viewVec c p) < c.radius) :
    Circle.map c p = none := by
  unfold Circle.map
  rw [if_neg (not_le.mpr h)]

/-! ### C4: Segment::collides threshold -/

/-- C4: `Segment::collides` holds iff the absolute signed circular distance
between the bisectors is at most half the sum of the widths (a non-strict
threshold, so tangentially touching segments collide); segments at bisectors
π/4 and 5π/4, both of width π/2, do not collide, while segments at π/4 and
7π/4, both of width π/2, do collide across the 0/2π seam. -/
theorem c4_collides_iff :
    (∀ s o : Segment,
      Segment.collides s o ↔ |Segment.dist s o| ≤ s.width / 2 + o.width / 2)
    ∧ ¬ Segment.collides ⟨π / 4, π / 2, true⟩ ⟨5 * π / 4, π / 2, true⟩
    ∧ Segment.collides ⟨π / 4, π / 2, true⟩ ⟨7 * π / 4, π / 2, true⟩ := by
  have hpi := Real.pi_pos
  refine ⟨fun s o => not_lt, ?_, ?_⟩
  · intro h
    apply h
    show |Segment.dist _ _| > π / 2 / 2 + π / 2 / 2
    have hd : Segment.dist ⟨π / 4, π / 2, true⟩ ⟨5 * π / 4, π / 2, true⟩ = π := by
      show fdist (π / 4) (5 * π / 4) = π
      rw [fdist_eval_mid (π / 4) (5 * π / 4) (by linarith) (by linarith)]
      ring
    rw [hd, abs_of_pos hpi]
    linarith
  · show ¬ (|Segment.dist _ _| > π / 2 / 2 + π / 2 / 2)
    have hd : Segment.dist ⟨π / 4, π / 2, true⟩ ⟨7 * π / 4, π / 2, true⟩ = -(π / 2) := by
      show fdist (π / 4) (7 * π / 4) = -(π / 2)
      rw [fdist_eval_hi (π / 4) (7 * π / 4) (by linarith) (by linarith)]
      ring
    rw [hd, abs_neg, abs_of_pos (by linarith : (0:ℝ) < π / 2)]
    intro hgt
    linarith

/-! ### C6: the inside guard of Circle::map -/

/-- C6 (amended): `Circle::map` returns `None` exactly when the viewpoint is
strictly inside the obstacle (distance to the center strictly below the
radius); at distance equal to the radius the guard `d >= r` passes and a
segment is returned. -/
theorem c6_none_iff_strictly_inside (c : Circle) (p : Vec2Z) :
    Circle.map c p = none ↔ Vec2R.len (viewVec c p) < c.radius := by
  by_cases h : c.radius ≤ Vec2R.len (viewVec c p)
  · rw [circle_map_of_ge c p h]
    constructor
    · intro hc
      exact absurd hc (Option.some_ne_none _)
    · intro hlt
      exact absurd h (not_le.mpr hlt)
  · have hlt := lt_of_not_le h
    rw [circle_map_of_lt c p hlt]
    exact ⟨fun _ => hlt, fun _ => rfl⟩

/-- C6 (counterexample to the claim as stated): at distance exactly equal to
the radius the code does NOT return `None`: a circle of radius 1 centered at
(1,0) seen from (0,0) has d = r = 1 and `Circle::map` returns the occluded
segment with bisector 0 and width π. -/
theorem c6_boundary_counterexample :
    Vec2R.len (viewVec ⟨(1, 0), 1⟩ (0, 0)) = 1 ∧
    Circle.map ⟨(1, 0), 1⟩ (0, 0) = some ⟨0, π, true⟩ := by
  have hv : viewVec ⟨(1, 0), 1⟩ (0, 0) = ((1 : ℝ), (0 : ℝ)) := by
    unfold viewVec Vec2Z.toR
    simp
  have hlen : Vec2R.len (viewVec ⟨(1, 0), 1⟩ (0, 0)) = 1 := by
    rw [hv]
    unfold Vec2R.len
    norm_num
  refine ⟨hlen, ?_⟩
  have hge : (Circle.mk (1, 0) 1).radius ≤ Vec2R.len (viewVec ⟨(1, 0), 1⟩ (0, 0)) := by
    rw [hlen]
  rw [circle_map_of_ge _ _ hge]
  have hb : atan2 (viewVec ⟨(1, 0), 1⟩ (0, 0)).2 (viewVec ⟨(1, 0), 1⟩ (0, 0)).1 = 0 := by
    rw [hv]
    exact atan2_eval 0 1 1 0 one_pos (by simp) (by simp) (by linarith [Real.pi_pos]) Real.pi_pos.le
  rw [hb, hlen]
  have : ¬ ((0 : ℝ) < 0) := lt_irrefl 0
  rw [if_neg this]
  have hw : Real.arcsin ((Circle.mk (1, 0) 1).radius / 1) * 2 = π := by
    rw [show ((Circle.mk (1, 0) 1).radius : ℝ) / 1 = 1 by norm_num, Real.arcsin_one]
    ring
  simp only [hw]

/-! ### C5 and C10: the segment produced by Circle::map -/

theorem atan2_mem_Ioc (y x : ℝ) : atan2 y x ∈ Set.Ioc (-π) π := by
  unfold atan2
  exact ⟨Complex.neg_pi_lt_arg _, Complex.arg_le_pi _⟩

/-- C10: whenever the guard of `Circle::map` passes (positive radius, distance
to the center at least the radius), the emitted segment has its bisector in
[0, 2π), its width in (0, π] (with width exactly π iff the distance equals the
radius), and the OCCLUDED color. -/
theorem c10_segment_wellformed (c : Circle) (p : Vec2Z)
    (hr : 0 < c.radius) (hd : c.radius ≤ Vec2R.len (viewVec c p)) :
    ∃ s, Circle.map c p = some s ∧
      0 ≤ s.bisector ∧ s.bisector < 2 * π ∧ 0 < s.width ∧ s.width ≤ π ∧
      (s.width = π ↔ Vec2R.len (viewVec c p) = c.radius) ∧ s.color = true := by
  have hpi := Real.pi_pos
  have hlen : 0 < Vec2R.len (viewVec c p) := lt_of_lt_of_le hr hd
  rw [circle_map_of_ge c p hd]
  have hb := atan2_mem_Ioc (viewVec c p).2 (viewVec c p).1
  have hratio0 : 0 < c.radius / Vec2R.len (viewVec c p) := div_pos hr hlen
  refine ⟨_, rfl, ?_, ?_, ?_, ?_, ?_, rfl⟩
  · by_cases h0 : atan2 (viewVec c p).2 (viewVec c p).1 < 0
    · rw [if_pos h0]
      linarith [hb.1]
    · rw [if_neg h0]
      linarith [not_lt.mp h0]
  · by_cases h0 : atan2 (viewVec c p).2 (viewVec c p).1 < 0
    · rw [if_pos h0]
      linarith
    · rw [if_neg h0]
      linarith [hb.2]
  · have := Real.arcsin_pos.mpr hratio0
    linarith
  · have := Real.arcsin_le_pi_div_two (c.radius / Vec2R.len (viewVec c p))
    linarith
  · constructor
    · intro hw
      have harc : Real.arcsin (c.radius / Vec2R.len (viewVec c p)) = π / 2 := by
        linarith
      have h1 : (1 : ℝ) ≤ c.radius / Vec2R.len (viewVec c p) :=
        Real.arcsin_eq_pi_div_two.mp harc
      have hle : Vec2R.len (viewVec c p) ≤ c.radius := (one_le_div hlen).mp h1
      exact le_antisymm hle hd
    · intro heq
      have h1 : c.radius / Vec2R.len (viewVec c p) = 1 := by
        rw [heq]
        exact div_self (ne_of_gt hr)
      rw [h1, Real.arcsin_one]
      ring

/-- C10 witness: the circle at (1, 1) with radius 1 seen from the origin. -/
theorem c10_segment_wellformed_witness :
    (0 : ℝ) < (Circle.mk ((1 : ℝ), (1 : ℝ)) 1).radius ∧
    (Circle.mk ((1 : ℝ), (1 : ℝ)) 1).radius ≤
      Vec2R.len (viewVec ⟨((1 : ℝ), (1 : ℝ)), 1⟩ (0, 0)) ∧
    (∃ s, Circle.map ⟨((1 : ℝ), (1 : ℝ)), 1⟩ (0, 0) = some s ∧
      0 ≤ s.bisector ∧ s.bisector < 2 * π ∧ 0 < s.width ∧ s.width ≤ π ∧
      (s.width = π ↔
        Vec2R.len (viewVec ⟨((1 : ℝ), (1 : ℝ)), 1⟩ (0, 0)) =
          (Circle.mk ((1 : ℝ), (1 : ℝ)) 1).radius) ∧
      s.color = true) := by
  have hv : viewVec ⟨((1 : ℝ), (1 : ℝ)), 1⟩ (0, 0) = ((1 : ℝ), (1 : ℝ)) := by
    unfold viewVec Vec2Z.toR
    simp
  have hd : (Circle.mk ((1 : ℝ), (1 : ℝ)) 1).radius ≤
      Vec2R.len (viewVec ⟨((1 : ℝ), (1 : ℝ)), 1⟩ (0, 0)) := by
    rw [hv]
    unfold Vec2R.len
    rw [show ((1 : ℝ) * 1 + 1 * 1) = 2 by norm_num]
    exact (Real.le_sqrt (by norm_num) (by norm_num)).mpr (by norm_num)
  exact ⟨one_pos, hd, c10_segment_wellformed _ _ one_pos hd⟩

/-- C5: for an obstacle strictly outside the viewpoint, `Circle::map` emits
one OCCLUDED segment of width `2·asin(r/d)` whose bisector is the `atan2` of
the viewing vector normalized into [0, 2π) (the returned bisector equals the
atan2 value, possibly shifted by one full turn, and lies in [0, 2π));
concretely, the circle at (-1, 1) with radius 1/2 viewed from (0, 0) yields a
bisector within 0.01 rad of 3π/4. -/
theorem c5_circle_map :
    (∀ (c : Circle) (p : Vec2Z), 0 < c.radius →
      c.radius < Vec2R.len (viewVec c p) →
      ∃ s, Circle.map c p = some s ∧ s.color = true ∧
        s.width = 2 * Real.arcsin (c.radius / Vec2R.len (viewVec c p)) ∧
        (s.bisector = atan2 (viewVec c p).2 (viewVec c p).1 ∨
          s.bisector = 2 * π + atan2 (viewVec c p).2 (viewVec c p).1) ∧
        0 ≤ s.bisector ∧ s.bisector < 2 * π)
    ∧ (∃ s, Circle.map ⟨((-1 : ℝ), (1 : ℝ)), 1 / 2⟩ (0, 0) = some s ∧
        |s.bisector - 3 * π / 4| < 1 / 100) := by
  constructor
  · intro c p hr hd
    obtain ⟨s, hmap, hb0, hb1, _, _, _, hcol⟩ :=
      c10_segment_wellformed c p hr (le_of_lt hd)
    refine ⟨s, hmap, hcol, ?_, ?_, hb0, hb1⟩
    · rw [circle_map_of_ge c p (le_of_lt hd)] at hmap
      have := Option.some.inj hmap
      rw [← this]
      ring
    · rw [circle_map_of_ge c p (le_of_lt hd)] at hmap
      have hs := Option.some.inj hmap
      rw [← hs]
      by_cases h0 : atan2 (viewVec c p).2 (viewVec c p).1 < 0
      · right
        rw [if_pos h0]
      · left
        rw [if_neg h0]
  · have hpi := Real.pi_pos
    have hv : viewVec ⟨((-1 : ℝ), (1 : ℝ)), 1 / 2⟩ (0, 0) = ((-1 : ℝ), (1 : ℝ)) := by
      unfold viewVec Vec2Z.toR
      simp
    have hlen : Vec2R.len (viewVec ⟨((-1 : ℝ), (1 : ℝ)), 1 / 2⟩ (0, 0)) = Real.sqrt 2 := by
      rw [hv]
      unfold Vec2R.len
      norm_num
    have hs2 : Real.sqrt 2 * Real.sqrt 2 = 2 := Real.mul_self_sqrt (by norm_num)
    have hs2pos : (0 : ℝ) < Real.sqrt 2 := Real.sqrt_pos.mpr (by norm_num)
    have hd : (Circle.mk ((-1 : ℝ), (1 : ℝ)) (1 / 2)).radius ≤
        Vec2R.len (viewVec ⟨((-1 : ℝ), (1 : ℝ)), 1 / 2⟩ (0, 0)) := by
      rw [hlen]
      show (1 : ℝ) / 2 ≤ Real.sqrt 2
      nlinarith
    rw [circle_map_of_ge _ _ hd]
    have hb : atan2 (viewVec ⟨((-1 : ℝ), (1 : ℝ)), 1 / 2⟩ (0, 0)).2
        (viewVec ⟨((-1 : ℝ), (1 : ℝ)), 1 / 2⟩ (0, 0)).1 = 3 * π / 4 := by
      rw [hv]
      apply atan2_eval 1 (-1) (Real.sqrt 2) (3 * π / 4) hs2pos
      · rw [show (3 : ℝ) * π / 4 = π - π / 4 by ring, Real.cos_pi_sub,
          Real.cos_pi_div_four]
        nlinarith
      · rw [show (3 : ℝ) * π / 4 = π - π / 4 by ring, Real.sin_pi_sub,
          Real.sin_pi_div_four]
        nlinarith
      · linarith
      · linarith
    rw [hb]
    have hnneg : ¬ (3 * π / 4 < 0) := by linarith
    rw [if_neg hnneg]
    refine ⟨_, rfl, ?_⟩
    simp only [sub_self, abs_zero]
    norm_num

/-- C5 witness: instantiation of the universal part at the circle of radius 1
centered at (1, 1), seen from the origin. -/
theorem c5_circle_map_witness :
    (0 : ℝ) < (Circle.mk ((1 : ℝ), (1 : ℝ)) 1).radius ∧
    (Circle.mk ((1 : ℝ), (1 : ℝ)) 1).radius <
      Vec2R.len (viewVec ⟨((1 : ℝ), (1 : ℝ)), 1⟩ (0, 0)) ∧
    (∃ s, Circle.map ⟨((1 : ℝ), (1 : ℝ)), 1⟩ (0, 0) = some s ∧ s.color = true ∧
      s.width = 2 * Real.arcsin ((Circle.mk ((1 : ℝ), (1 : ℝ)) 1).radius /
        Vec2R.len (viewVec ⟨((1 : ℝ), (1 : ℝ)), 1⟩ (0, 0))) ∧
      (s.bisector = atan2 (viewVec ⟨((1 : ℝ), (1 : ℝ)), 1⟩ (0, 0)).2
          (viewVec ⟨((1 : ℝ), (1 : ℝ)), 1⟩ (0, 0)).1 ∨
        s.bisector = 2 * π + atan2 (viewVec ⟨((1 : ℝ), (1 : ℝ)), 1⟩ (0, 0)).2
          (viewVec ⟨((1 : ℝ), (1 : ℝ)), 1⟩ (0, 0)).1) ∧
      0 ≤ s.bisector ∧ s.bisector < 2 * π) := by
  have hv : viewVec ⟨((1 : ℝ), (1 : ℝ)), 1⟩ (0, 0) = ((1 : ℝ), (1 : ℝ)) := by
    unfold viewVec Vec2Z.toR
    simp
  have hd : (Circle.mk ((1 : ℝ), (1 : ℝ)) 1).radius <
      Vec2R.len (viewVec ⟨((1 : ℝ), (1 : ℝ)), 1⟩ (0, 0)) := by
    rw [hv]
    unfold Vec2R.len
    rw [show ((1 : ℝ) * 1 + 1 * 1) = 2 by norm_num]
    exact (Real.lt_sqrt (by norm_num)).mpr (by norm_num)
  exact ⟨one_pos, hd, c5_circle_map.1 _ _ one_pos hd⟩

/-! ### C7: empty segment list makes Image::new panic -/

/-- C7: on an empty obstacle set, and likewise when no obstacle is visible,
`Image::new` does not build a single background segment: the merge loop
evaluates `segments[0]` on the empty segment vector and the program panics
(modelled by `none`). -/
theorem c7_empty_obstacles_panic :
    Image.new (0, 0) [] = none ∧ Image.new (0, 0) [⟨(0, 0), 1⟩] = none := by
  constructor
  · unfold Image.new
    simp
  · have hv : viewVec ⟨(0, 0), 1⟩ (0, 0) = ((0 : ℝ), (0 : ℝ)) := by
      unfold viewVec Vec2Z.toR
      simp
    have hmap : Circle.map ⟨(0, 0), 1⟩ (0, 0) = none := by
      apply circle_map_of_lt
      rw [hv]
      unfold Vec2R.len
      norm_num
    rw [image_new_eq]
    have hfm : ([(⟨(0, 0), 1⟩ : Circle)].filterMap (fun o => Circle.map o (0, 0))) = [] := by
      simp only [List.filterMap_cons, hmap, List.filterMap_nil]
    rw [hfm]
    rfl

/-! ### C2: the homing vector formula -/

/-- Componentwise product versus scalar action on a pair. -/
theorem mul_comm_vec (d x y : ℝ) :
    ((x * d, y * d) : Vec2R) = d • ((x, y) : Vec2R) := by
  rw [Prod.smul_mk]
  simp [smul_eq_mul, mul_comm]

theorem foldl_add_eq_sum {α : Type} (f : α → Vec2R) (step : Vec2R → α → Vec2R)
    (hstep : ∀ w a, step w a = w + f a) (l : List α) (v : Vec2R) :
    l.foldl step v = v + (l.map f).sum := by
  induction l generalizing v with
  | nil => simp
  | cons a t ih =>
    rw [List.foldl_cons, ih, hstep, List.map_cons, List.sum_cons, add_assoc]

theorem turningStep_eq (tv : Vec2R) (pr : Segment × Segment) :
    turningStep tv pr = tv + specTurningTerm pr := by
  simp only [turningStep, specTurningTerm, mul_comm_vec]

theorem positioningStep_eq (pv : Vec2R) (pr : Segment × Segment) :
    positioningStep pv pr = pv + specPositioningTerm pr := by
  simp only [positioningStep, specPositioningTerm, mul_comm_vec]

theorem turningVec_eq_sum (ps : List (Segment × Segment)) :
    turningVec ps = (ps.map specTurningTerm).sum := by
  unfold turningVec
  rw [foldl_add_eq_sum specTurningTerm turningStep turningStep_eq ps (0, 0)]
  simp

theorem positioningVec_eq_sum (ps : List (Segment × Segment)) :
    positioningVec ps = (ps.map specPositioningTerm).sum := by
  unfold positioningVec
  rw [foldl_add_eq_sum specPositioningTerm positioningStep positioningStep_eq ps (0, 0)]
  simp

/-- C2: whenever the matching pass succeeds, `Bee::home` returns the
normalization of the accumulated turning vector plus three times the
accumulated positioning vector, each accumulator being the plain sum (not the
average) of the spec's per-pair contributions. -/
theorem c2_home_formula (snapshot retina : Image) (ps : List (Segment × Segment))
    (h : matched? snapshot.segments retina.segments = some ps) :
    Bee.home snapshot retina =
      some (Vec2R.normalized
        ((ps.map specTurningTerm).sum +
          (3 : ℝ) • (ps.map specPositioningTerm).sum)) := by
  unfold Bee.home
  rw [h]
  simp only [Option.map_some']
  rw [turningVec_eq_sum, positioningVec_eq_sum]

/-- C2 witness: snapshot and retina both consisting of the single occluded
segment with bisector 0 and width 1. -/
theorem c2_home_formula_witness :
    matched? [(⟨0, 1, true⟩ : Segment)] [(⟨0, 1, true⟩ : Segment)] =
      some [((⟨0, 1, true⟩ : Segment), (⟨0, 1, true⟩ : Segment))] ∧
    Bee.home ⟨[⟨0, 1, true⟩]⟩ ⟨[⟨0, 1, true⟩]⟩ =
      some (Vec2R.normalized
        (([((⟨0, 1, true⟩ : Segment), (⟨0, 1, true⟩ : Segment))].map
            specTurningTerm).sum +
          (3 : ℝ) • ([((⟨0, 1, true⟩ : Segment),
            (⟨0, 1, true⟩ : Segment))].map specPositioningTerm).sum)) := by
  have hm : matched? [(⟨0, 1, true⟩ : Segment)] [(⟨0, 1, true⟩ : Segment)] =
      some [((⟨0, 1, true⟩ : Segment), (⟨0, 1, true⟩ : Segment))] := by
    unfold matched? matched? matchSeg
    simp [ite_self, matchStep]
  exact ⟨hm, c2_home_formula ⟨[⟨0, 1, true⟩]⟩ ⟨[⟨0, 1, true⟩]⟩ _ hm⟩

/-! ### C8: missing same-color candidate -/

/-- C8: when the retina image has no segment of the color required by a
snapshot segment, `Bee::home` does not fail with an explicit error condition:
it panics through the unchecked `.unwrap()` of the matching step (modelled by
`none`). -/
theorem c8_missing_color_panics :
    Bee.home ⟨[⟨0, 1, true⟩]⟩ ⟨[⟨π / 2, 1, false⟩]⟩ = none := by
  unfold Bee.home
  have hm : matched? [(⟨0, 1, true⟩ : Segment)] [(⟨π / 2, 1, false⟩ : Segment)] =
      none := by
    unfold matched? matched? matchSeg
    simp
  rw [hm]
  rfl

/-! ### C9: zero-length normalization at the end of Bee::home -/

theorem normalized_unit (x y : ℝ) (h : x * x + y * y = 1) :
    Vec2R.normalized (x, y) = (x, y) := by
  simp [Vec2R.normalized, Vec2R.len, h]

theorem dist_zero_zero : Segment.dist ⟨0, 1, true⟩ ⟨0, 1, true⟩ = 0 := by
  show fdist 0 0 = 0
  rw [fdist_eval_mid 0 0 (by linarith [Real.pi_pos]) (by linarith [Real.pi_pos])]
  norm_num

theorem dist_pi_pi : Segment.dist ⟨π, 1, true⟩ ⟨π, 1, true⟩ = 0 := by
  show fdist π π = 0
  rw [fdist_eval_mid π π (by linarith [Real.pi_pos]) (by linarith [Real.pi_pos])]
  norm_num

theorem dist_zero_pi : Segment.dist ⟨0, 1, true⟩ ⟨π, 1, true⟩ = π := by
  show fdist 0 π = π
  rw [fdist_eval_mid 0 π (by linarith [Real.pi_pos]) (by linarith [Real.pi_pos])]
  norm_num

theorem dist_pi_zero : Segment.dist ⟨π, 1, true⟩ ⟨0, 1, true⟩ = π := by
  show fdist π 0 = π
  rw [fdist_eval_lo π 0 (by linarith [Real.pi_pos]) (by linarith [Real.pi_pos])]
  ring

theorem matched_two_antipodal :
    matched? [(⟨0, 1, true⟩ : Segment), ⟨π, 1, true⟩]
        [(⟨0, 1, true⟩ : Segment), ⟨π, 1, true⟩] =
      some [((⟨0, 1, true⟩ : Segment), (⟨0, 1, true⟩ : Segment)),
            ((⟨π, 1, true⟩ : Segment), (⟨π, 1, true⟩ : Segment))] := by
  have hpi := Real.pi_pos
  have hm1 : matchSeg ⟨0, 1, true⟩ [(⟨0, 1, true⟩ : Segment), ⟨π, 1, true⟩] =
      some ⟨0, 1, true⟩ := by
    unfold matchSeg
    simp only [List.find?_cons]
    norm_num [matchStep]
    intro h
    rw [dist_zero_pi, dist_zero_zero, abs_of_pos hpi, abs_zero] at h
    linarith
  have hm2 : matchSeg ⟨π, 1, true⟩ [(⟨0, 1, true⟩ : Segment), ⟨π, 1, true⟩] =
      some ⟨π, 1, true⟩ := by
    unfold matchSeg
    simp only [List.find?_cons]
    norm_num [matchStep]
    intro h
    rw [dist_pi_zero, dist_pi_pi, abs_of_pos hpi, abs_zero] at h
    linarith
  unfold matched? matched? matched?
  rw [hm1, hm2]
  rfl

theorem turning_antipodal_zero :
    turningVec [((⟨0, 1, true⟩ : Segment), (⟨0, 1, true⟩ : Segment)),
                ((⟨π, 1, true⟩ : Segment), (⟨π, 1, true⟩ : Segment))] =
      ((0 : ℝ), (0 : ℝ)) := by
  have hpi := Real.pi_pos
  have hw : ¬ ((1 : ℝ) > π) := by
    intro h
    linarith [Real.pi_gt_three]
  have t1 : turningStep ((0 : ℝ), (0 : ℝ))
      ((⟨0, 1, true⟩ : Segment), (⟨0, 1, true⟩ : Segment)) = ((0 : ℝ), (-1 : ℝ)) := by
    unfold turningStep
    dsimp only
    rw [dist_zero_zero, if_neg (lt_irrefl (0 : ℝ)), if_neg hw]
    rw [show (0 : ℝ) - π / 2 = -(π / 2) by ring, Real.cos_neg, Real.sin_neg,
      Real.cos_pi_div_two, Real.sin_pi_div_two]
    rw [show ((0 : ℝ) * 1, (-1 : ℝ) * 1) = (((0 : ℝ), (-1 : ℝ)) : Vec2R) by norm_num]
    rw [normalized_unit 0 (-1) (by norm_num)]
    rw [Prod.mk_add_mk]
    norm_num
  have t2 : turningStep ((0 : ℝ), (-1 : ℝ))
      ((⟨π, 1, true⟩ : Segment), (⟨π, 1, true⟩ : Segment)) = ((0 : ℝ), (0 : ℝ)) := by
    unfold turningStep
    dsimp only
    rw [dist_pi_pi, if_neg (lt_irrefl (0 : ℝ)), if_neg hw]
    rw [show π - π / 2 = π / 2 by ring, Real.cos_pi_div_two, Real.sin_pi_div_two]
    rw [show ((0 : ℝ) * 1, (1 : ℝ) * 1) = (((0 : ℝ), (1 : ℝ)) : Vec2R) by norm_num]
    rw [normalized_unit 0 1 (by norm_num)]
    rw [Prod.mk_add_mk]
    norm_num
  unfold turningVec
  rw [List.foldl_cons, t1, List.foldl_cons, t2, List.foldl_nil]

theorem positioning_antipodal_zero :
    positioningVec [((⟨0, 1, true⟩ : Segment), (⟨0, 1, true⟩ : Segment)),
                    ((⟨π, 1, true⟩ : Segment), (⟨π, 1, true⟩ : Segment))] =
      ((0 : ℝ), (0 : ℝ)) := by
  have p1 : positioningStep ((0 : ℝ), (0 : ℝ))
      ((⟨0, 1, true⟩ : Segment), (⟨0, 1, true⟩ : Segment)) = ((-1 : ℝ), (0 : ℝ)) := by
    unfold positioningStep
    dsimp only
    rw [if_neg (lt_irrefl (1 : ℝ)), Real.cos_zero, Real.sin_zero]
    rw [show ((1 : ℝ) * -1, (0 : ℝ) * -1) = (((-1 : ℝ), (0 : ℝ)) : Vec2R) by norm_num]
    rw [normalized_unit (-1) 0 (by norm_num)]
    rw [Prod.mk_add_mk]
    norm_num
  have p2 : positioningStep ((-1 : ℝ), (0 : ℝ))
      ((⟨π, 1, true⟩ : Segment), (⟨π, 1, true⟩ : Segment)) = ((0 : ℝ), (0 : ℝ)) := by
    unfold positioningStep
    dsimp only
    rw [if_neg (lt_irrefl (1 : ℝ)), Real.cos_pi, Real.sin_pi]
    rw [show ((-1 : ℝ) * -1, (0 : ℝ) * -1) = (((1 : ℝ), (0 : ℝ)) : Vec2R) by norm_num]
    rw [normalized_unit 1 0 (by norm_num)]
    rw [Prod.mk_add_mk]
    norm_num
  unfold positioningVec
  rw [List.foldl_cons, p1, List.foldl_cons, p2, List.foldl_nil]

/-- C9: on the concrete snapshot-equals-retina input made of the two
antipodal occluded segments with bisectors 0 and π (width 1 each), the
matching succeeds, the accumulated turning and positioning contributions
cancel exactly, and `Bee::home` normalizes the zero vector: the length fed to
the division is 0, so the `f32` code computes 0.0/0.0 and returns a NaN
vector instead of a documented zero sentinel. -/
theorem c9_zero_normalization :
    matched? [(⟨0, 1, true⟩ : Segment), ⟨π, 1, true⟩]
        [(⟨0, 1, true⟩ : Segment), ⟨π, 1, true⟩] =
      some [((⟨0, 1, true⟩ : Segment), (⟨0, 1, true⟩ : Segment)),
            ((⟨π, 1, true⟩ : Segment), (⟨π, 1, true⟩ : Segment))] ∧
    turningVec [((⟨0, 1, true⟩ : Segment), (⟨0, 1, true⟩ : Segment)),
                ((⟨π, 1, true⟩ : Segment), (⟨π, 1, true⟩ : Segment))] +
      (3 : ℝ) • positioningVec [((⟨0, 1, true⟩ : Segment), (⟨0, 1, true⟩ : Segment)),
                ((⟨π, 1, true⟩ : Segment), (⟨π, 1, true⟩ : Segment))] =
      ((0 : ℝ), (0 : ℝ)) ∧
    Vec2R.len ((0 : ℝ), (0 : ℝ)) = 0 ∧
    Bee.home ⟨[⟨0, 1, true⟩, ⟨π, 1, true⟩]⟩ ⟨[⟨0, 1, true⟩, ⟨π, 1, true⟩]⟩ =
      some (Vec2R.normalized ((0 : ℝ), (0 : ℝ))) := by
  have hsum : turningVec [((⟨0, 1, true⟩ : Segment), (⟨0, 1, true⟩ : Segment)),
                ((⟨π, 1, true⟩ : Segment), (⟨π, 1, true⟩ : Segment))] +
      (3 : ℝ) • positioningVec [((⟨0, 1, true⟩ : Segment), (⟨0, 1, true⟩ : Segment)),
                ((⟨π, 1, true⟩ : Segment), (⟨π, 1, true⟩ : Segment))] =
      ((0 : ℝ), (0 : ℝ)) := by
    rw [turning_antipodal_zero, positioning_antipodal_zero]
    rw [Prod.smul_mk, Prod.mk_add_mk]
    norm_num
  refine ⟨matched_two_antipodal, hsum, ?_, ?_⟩
  · unfold Vec2R.len
    norm_num
  · unfold Bee.home
    rw [matched_two_antipodal]
    simp only [Option.map_some']
    rw [hsum]

/-! ### C3: the matching step -/

theorem matchStep_pos (ss best r : Segment)
    (h : |Segment.dist ss r| < |Segment.dist ss best| ∧ r.color = ss.color) :
    matchStep ss best r = r := by
  unfold matchStep
  exact if_pos h

theorem matchStep_neg (ss best r : Segment)
    (h : ¬ (|Segment.dist ss r| < |Segment.dist ss best| ∧ r.color = ss.color)) :
    matchStep ss best r = best := by
  unfold matchStep
  exact if_neg h

theorem matchStep_cases (ss best r : Segment) :
    matchStep ss best r = best ∨
    (matchStep ss best r = r ∧ |Segment.dist ss r| < |Segment.dist ss best| ∧
      r.color = ss.color) := by
  by_cases h : |Segment.dist ss r| < |Segment.dist ss best| ∧ r.color = ss.color
  · exact Or.inr ⟨matchStep_pos ss best r h, h.1, h.2⟩
  · exact Or.inl (matchStep_neg ss best r h)

theorem matchStep_dist_le (ss best r : Segment) :
    |Segment.dist ss (matchStep ss best r)| ≤ |Segment.dist ss best| := by
  rcases matchStep_cases ss best r with h | ⟨h, hlt, _⟩
  · rw [h]
  · rw [h]
    exact le_of_lt hlt

theorem matchStep_dist_min (ss best r : Segment) (hc : r.color = ss.color) :
    |Segment.dist ss (matchStep ss best r)| ≤ |Segment.dist ss r| := by
  by_cases h : |Segment.dist ss r| < |Segment.dist ss best| ∧ r.color = ss.color
  · rw [matchStep_pos ss best r h]
  · rw [matchStep_neg ss best r h]
    have hnlt : ¬ (|Segment.dist ss r| < |Segment.dist ss best|) :=
      fun hlt => h ⟨hlt, hc⟩
    exact not_lt.mp hnlt

theorem foldl_matchStep_color (ss : Segment) (l : List Segment) (b : Segment)
    (hb : b.color = ss.color) : (l.foldl (matchStep ss) b).color = ss.color := by
  induction l generalizing b with
  | nil => exact hb
  | cons r t ih =>
    rw [List.foldl_cons]
    apply ih
    rcases matchStep_cases ss b r with h | ⟨h, _, hc⟩
    · rw [h]
      exact hb
    · rw [h]
      exact hc

theorem foldl_matchStep_dist_le (ss : Segment) (l : List Segment) (b : Segment) :
    |Segment.dist ss (l.foldl (matchStep ss) b)| ≤ |Segment.dist ss b| := by
  induction l generalizing b with
  | nil => exact le_refl _
  | cons r t ih =>
    rw [List.foldl_cons]
    exact le_trans (ih (matchStep ss b r)) (matchStep_dist_le ss b r)

theorem foldl_matchStep_min (ss : Segment) (l : List Segment) (b : Segment) :
    ∀ r ∈ l, r.color = ss.color →
      |Segment.dist ss (l.foldl (matchStep ss) b)| ≤ |Segment.dist ss r| := by
  induction l generalizing b with
  | nil =>
    intro r hr
    exact absurd hr (List.not_mem_nil r)
  | cons a t ih =>
    intro r hr hc
    rw [List.foldl_cons]
    rcases List.mem_cons.mp hr with rfl | hmem
    · exact le_trans (foldl_matchStep_dist_le ss t (matchStep ss b r))
        (matchStep_dist_min ss b r hc)
    · exact ih (matchStep ss b a) r hmem hc

theorem foldl_matchStep_first (ss : Segment) (l : List Segment) (b : Segment) :
    l.foldl (matchStep ss) b = b ∨
    ∃ l₁ l₂, l = l₁ ++ (l.foldl (matchStep ss) b) :: l₂ ∧
      |Segment.dist ss (l.foldl (matchStep ss) b)| < |Segment.dist ss b| ∧
      ∀ r ∈ l₁, r.color = ss.color →
        |Segment.dist ss (l.foldl (matchStep ss) b)| < |Segment.dist ss r| := by
  induction l generalizing b with
  | nil => exact Or.inl rfl
  | cons a t ih =>
    rw [List.foldl_cons]
    by_cases hc : |Segment.dist ss a| < |Segment.dist ss b| ∧ a.color = ss.color
    · rw [matchStep_pos ss b a hc]
      rcases ih a with h | ⟨l₁, l₂, hdec, hlt, hfirst⟩
      · right
        refine ⟨[], t, ?_, ?_, ?_⟩
        · rw [h]
          rfl
        · rw [h]
          exact hc.1
        · intro r hr
          exact absurd hr (List.not_mem_nil r)
      · right
        refine ⟨a :: l₁, l₂, ?_, lt_trans hlt hc.1, ?_⟩
        · rw [List.cons_append, ← hdec]
        · intro r hr hcol
          rcases List.mem_cons.mp hr with rfl | hr2
          · exact hlt
          · exact hfirst r hr2 hcol
    · rw [matchStep_neg ss b a hc]
      rcases ih b with h | ⟨l₁, l₂, hdec, hlt, hfirst⟩
      · exact Or.inl h
      · right
        refine ⟨a :: l₁, l₂, ?_, hlt, ?_⟩
        · rw [List.cons_append, ← hdec]
        · intro r hr hcol
          rcases List.mem_cons.mp hr with rfl | hr2
          · have hnlt : ¬ (|Segment.dist ss r| < |Segment.dist ss b|) :=
              fun hl => hc ⟨hl, hcol⟩
            exact lt_of_lt_of_le hlt (not_lt.mp hnlt)
          · exact hfirst r hr2 hcol

/-- C3: for every snapshot segment with at least one same-color retina
candidate, the matching step returns a same-color retina segment minimizing
the absolute signed circular distance to the snapshot segment; among the
minimizers it is the one first encountered in the retina's stored order
(every same-color segment strictly before it in the retina list is strictly
farther); and the full matching pass produces exactly one pair per snapshot
segment, in snapshot order. -/
theorem c3_matching :
    (∀ (s : Segment) (retina : List Segment),
      (∃ r ∈ retina, r.color = s.color) →
      ∃ m, matchSeg s retina = some m ∧ m.color = s.color ∧
        (∀ r ∈ retina, r.color = s.color →
          |Segment.dist s m| ≤ |Segment.dist s r|) ∧
        (∃ l₁ l₂, retina = l₁ ++ m :: l₂ ∧
          ∀ r ∈ l₁, r.color = s.color →
            |Segment.dist s m| < |Segment.dist s r|))
    ∧ (∀ (snap retina : List Segment) (ps : List (Segment × Segment)),
        matched? snap retina = some ps → ps.map Prod.fst = snap) := by
  constructor
  · intro s retina hex
    have hsome : (retina.find? (fun r => r.color == s.color)).isSome := by
      rw [List.find?_isSome]
      obtain ⟨r, hr, hc⟩ := hex
      exact ⟨r, hr, by simp [hc]⟩
    obtain ⟨first, hfind⟩ := Option.isSome_iff_exists.mp hsome
    have hfc : first.color = s.color := by
      have := List.find?_some hfind
      simpa using this
    refine ⟨retina.foldl (matchStep s) first, ?_, ?_, ?_, ?_⟩
    · unfold matchSeg
      rw [hfind]
    · exact foldl_matchStep_color s retina first hfc
    · exact foldl_matchStep_min s retina first
    · rcases foldl_matchStep_first s retina first with h | ⟨l₁, l₂, hdec, _, hfirst⟩
      · obtain ⟨_, as, bs, hsplit, hall⟩ := List.find?_eq_some.mp hfind
        refine ⟨as, bs, ?_, ?_⟩
        · rw [h, hsplit]
        · intro r hr hcol
          have := hall r hr
          simp [hcol] at this
      · exact ⟨l₁, l₂, hdec, hfirst⟩
  · intro snap
    induction snap with
    | nil =>
      intro retina ps h
      unfold matched? at h
      simp only [Option.some.injEq] at h
      rw [← h]
      rfl
    | cons s rest ih =>
      intro retina ps h
      unfold matched? at h
      rcases hms : matchSeg s retina with _ | m
      · rw [hms] at h
        exact absurd h (by simp)
      · rw [hms] at h
        rcases hrest : matched? rest retina with _ | ps'
        · rw [hrest] at h
          exact absurd h (by simp)
        · rw [hrest] at h
          simp at h
          subst h
          rw [List.map_cons, ih retina ps' hrest]

/-! ### C1: total width of the built image -/

theorem sum_start_eq (ms : List Segment) :
    (ms.map startEdge).sum = (ms.map endEdge).sum - (ms.map Segment.width).sum := by
  induction ms with
  | nil => simp
  | cons s t ih =>
    simp only [List.map_cons, List.sum_cons, ih]
    unfold startEdge endEdge
    ring

theorem prevEdges_sum (ms : List Segment) (h : ms ≠ []) :
    (prevEdges ms).sum = (ms.map endEdge).sum - 2 * π := by
  cases ms with
  | nil => exact absurd rfl h
  | cons s rest =>
    simp only [prevEdges, List.sum_cons]
    have hsplit : ((s :: rest).map endEdge).sum
        = ((s :: rest).dropLast.map endEdge).sum
          + endEdge ((s :: rest).getLast (List.cons_ne_nil s rest)) := by
      conv_lhs => rw [← List.dropLast_append_getLast (List.cons_ne_nil s rest)]
      rw [List.map_append, List.sum_append]
      simp
    rw [hsplit]
    ring

theorem prevEdges_length (ms : List Segment) : (prevEdges ms).length = ms.length := by
  cases ms with
  | nil => rfl
  | cons s rest =>
    simp only [prevEdges, List.length_cons, List.length_map, List.length_dropLast]
    simp

theorem mkBackground_width (p : ℝ) (s : Segment) :
    (mkBackground p s).width = startEdge s - p := rfl

theorem zipWith_width_sum (l1 : List ℝ) (l2 : List Segment) (h : l1.length = l2.length) :
    ((List.zipWith mkBackground l1 l2).map Segment.width).sum
      = (l2.map startEdge).sum - l1.sum := by
  induction l1 generalizing l2 with
  | nil =>
    cases l2 with
    | nil => simp
    | cons s t2 => simp at h
  | cons p t ih =>
    cases l2 with
    | nil => simp at h
    | cons s t2 =>
      simp only [List.zipWith_cons_cons, List.map_cons, List.sum_cons,
        mkBackground_width]
      rw [ih t2 (by simpa using h)]
      ring

/-- The telescoping identity behind the partition invariant: for any nonempty
merged list, the widths of the merged segments plus the widths of the filled
background segments sum to exactly 2π, regardless of the values involved. -/
theorem image_sum_width (ms : List Segment) (h : ms ≠ []) :
    ((ms ++ fillBackground ms).map Segment.width).sum = 2 * π := by
  rw [List.map_append, List.sum_append]
  unfold fillBackground
  rw [zipWith_width_sum (prevEdges ms) ms (prevEdges_length ms)]
  rw [sum_start_eq ms, prevEdges_sum ms h]
  ring

theorem sortByBisector_perm (l : List Segment) :
    List.Perm (sortByBisector l) l :=
  List.perm_insertionSort _ l

theorem sortByBisector_sum_width (l : List Segment) :
    ((sortByBisector l).map Segment.width).sum = (l.map Segment.width).sum :=
  ((sortByBisector_perm l).map Segment.width).sum_eq

theorem sortByBisector_ne_nil (l : List Segment) (h : l ≠ []) :
    sortByBisector l ≠ [] := by
  intro hc
  apply h
  have hlen := (sortByBisector_perm l).length_eq
  rw [hc] at hlen
  exact List.length_eq_zero.mp hlen.symm

theorem mergeLoop_cons (s : Segment) (rest : List Segment) :
    mergeLoop (s :: rest)
      = (Segment.merge s rest).1 :: mergeLoop (Segment.merge s rest).2 := by
  simp only [mergeLoop]

theorem mergeLoop_ne_nil (l : List Segment) (h : l ≠ []) : mergeLoop l ≠ [] := by
  cases l with
  | nil => exact absurd rfl h
  | cons s rest =>
    rw [mergeLoop_cons]
    exact List.cons_ne_nil _ _

/-- C1 (amended): whenever at least one obstacle produces an occlusion
segment, `Image::new` succeeds and the segment widths of the built image sum
to exactly 2π (hence within every floating tolerance); in particular this
holds for the three-circle scenario of the claim.  The pairwise non-overlap
half of the original claim fails on the code: see the counterexample. -/
theorem c1_total_width (p : Vec2Z) (obstacles : List Circle)
    (h : obstacles.filterMap (fun o => Circle.map o p) ≠ []) :
    ∃ img, Image.new p obstacles = some img ∧
      (img.segments.map Segment.width).sum = 2 * π := by
  rw [image_new_eq]
  rw [if_neg (by simpa using h)]
  refine ⟨_, rfl, ?_⟩
  have hml : mergeLoop (obstacles.filterMap (fun o => Circle.map o p)) ≠ [] :=
    mergeLoop_ne_nil _ h
  have hs : sortByBisector (mergeLoop (obstacles.filterMap (fun o => Circle.map o p))) ≠ [] :=
    sortByBisector_ne_nil _ hml
  rw [sortByBisector_sum_width]
  exact image_sum_width _ hs

/-- C1 witness: the three circles of the program (radius 1/2, centers
(3.5, 2), (3.5, -2), (0, -4)) viewed from the origin: at least one obstacle
is visible and the built image's widths sum to exactly 2π. -/
theorem c1_total_width_witness :
    ([(⟨((7 : ℝ) / 2, (2 : ℝ)), 1 / 2⟩ : Circle), ⟨((7 : ℝ) / 2, (-2 : ℝ)), 1 / 2⟩,
        ⟨((0 : ℝ), (-4 : ℝ)), 1 / 2⟩].filterMap
      (fun o => Circle.map o (0, 0)) ≠ []) ∧
    (∃ img, Image.new (0, 0)
        [⟨((7 : ℝ) / 2, (2 : ℝ)), 1 / 2⟩, ⟨((7 : ℝ) / 2, (-2 : ℝ)), 1 / 2⟩,
          ⟨((0 : ℝ), (-4 : ℝ)), 1 / 2⟩] = some img ∧
      (img.segments.map Segment.width).sum = 2 * π) := by
  have hv : viewVec ⟨((7 : ℝ) / 2, (2 : ℝ)), 1 / 2⟩ (0, 0) = ((7 : ℝ) / 2, (2 : ℝ)) := by
    unfold viewVec Vec2Z.toR
    simp
  have hg : (Circle.mk ((7 : ℝ) / 2, (2 : ℝ)) (1 / 2)).radius ≤
      Vec2R.len (viewVec ⟨((7 : ℝ) / 2, (2 : ℝ)), 1 / 2⟩ (0, 0)) := by
    rw [hv]
    unfold Vec2R.len
    show (1 : ℝ) / 2 ≤ Real.sqrt ((7 : ℝ) / 2 * ((7 : ℝ) / 2) + 2 * 2)
    rw [show ((7 : ℝ) / 2 * ((7 : ℝ) / 2) + 2 * 2) = 65 / 4 by norm_num]
    exact (Real.le_sqrt (by norm_num) (by norm_num)).mpr (by norm_num)
  have hne : ([(⟨((7 : ℝ) / 2, (2 : ℝ)), 1 / 2⟩ : Circle), ⟨((7 : ℝ) / 2, (-2 : ℝ)), 1 / 2⟩,
      ⟨((0 : ℝ), (-4 : ℝ)), 1 / 2⟩].filterMap (fun o => Circle.map o (0, 0)) ≠ []) := by
    simp only [List.filterMap_cons, circle_map_of_ge _ _ hg]
    exact List.cons_ne_nil _ _
  exact ⟨hne, c1_total_width (0, 0) _ hne⟩

/-- C3 witness: snapshot segment (0, 1, OCCLUDED) against the singleton
retina containing the same segment. -/
theorem c3_matching_witness :
    (∃ r ∈ [(⟨0, 1, true⟩ : Segment)], r.color = (⟨0, 1, true⟩ : Segment).color) ∧
    (∃ m, matchSeg ⟨0, 1, true⟩ [(⟨0, 1, true⟩ : Segment)] = some m ∧
      m.color = (⟨0, 1, true⟩ : Segment).color ∧
      (∀ r ∈ [(⟨0, 1, true⟩ : Segment)], r.color = (⟨0, 1, true⟩ : Segment).color →
        |Segment.dist ⟨0, 1, true⟩ m| ≤ |Segment.dist ⟨0, 1, true⟩ r|) ∧
      (∃ l₁ l₂, [(⟨0, 1, true⟩ : Segment)] = l₁ ++ m :: l₂ ∧
        ∀ r ∈ l₁, r.color = (⟨0, 1, true⟩ : Segment).color →
          |Segment.dist ⟨0, 1, true⟩ m| < |Segment.dist ⟨0, 1, true⟩ r|)) := by
  have hex : ∃ r ∈ [(⟨0, 1, true⟩ : Segment)],
      r.color = (⟨0, 1, true⟩ : Segment).color :=
    ⟨⟨0, 1, true⟩, List.mem_singleton_self _, rfl⟩
  exact ⟨hex, c3_matching.1 ⟨0, 1, true⟩ [⟨0, 1, true⟩] hex⟩

/-! ### C1 counterexample: overlap across the 0/2π seam

The three unit circles centered at (1, -1), (-1, 1) and (1, 1), seen from the
origin, project to occluded segments at bisectors 7π/4, 3π/4 and π/4 of width
π/2 each.  The segments at 7π/4 and π/4 touch across the 0/2π seam and are
merged, but the edge union works on raw (non-circular) edges, so the union of
[3π/2, 2π] and [0, π/2] becomes [0, 2π]: a segment of width 2π that overlaps
the surviving segment at 3π/4. -/

theorem arcsin_inv_sqrt_two : Real.arcsin (1 / Real.sqrt 2) = π / 4 := by
  have hs2 : Real.sqrt 2 * Real.sqrt 2 = 2 := Real.mul_self_sqrt (by norm_num)
  have hs2pos : (0 : ℝ) < Real.sqrt 2 := Real.sqrt_pos.mpr (by norm_num)
  have h : (1 : ℝ) / Real.sqrt 2 = Real.sin (π / 4) := by
    rw [Real.sin_pi_div_four]
    rw [div_eq_div_iff (ne_of_gt hs2pos) (by norm_num : (2 : ℝ) ≠ 0)]
    linear_combination -hs2
  rw [h]
  exact Real.arcsin_sin (by linarith [Real.pi_pos]) (by linarith [Real.pi_pos])

theorem seam_mapA :
    Circle.map ⟨((1 : ℝ), (-1 : ℝ)), 1⟩ (0, 0) = some ⟨7 * π / 4, π / 2, true⟩ := by
  have hs2 : Real.sqrt 2 * Real.sqrt 2 = 2 := Real.mul_self_sqrt (by norm_num)
  have hs2pos : (0 : ℝ) < Real.sqrt 2 := Real.sqrt_pos.mpr (by norm_num)
  have hv : viewVec ⟨((1 : ℝ), (-1 : ℝ)), 1⟩ (0, 0) = ((1 : ℝ), (-1 : ℝ)) := by
    unfold viewVec Vec2Z.toR
    simp
  have hlen : Vec2R.len (viewVec ⟨((1 : ℝ), (-1 : ℝ)), 1⟩ (0, 0)) = Real.sqrt 2 := by
    rw [hv]
    unfold Vec2R.len
    norm_num
  have hge : (Circle.mk ((1 : ℝ), (-1 : ℝ)) 1).radius ≤
      Vec2R.len (viewVec ⟨((1 : ℝ), (-1 : ℝ)), 1⟩ (0, 0)) := by
    rw [hlen]
    show (1 : ℝ) ≤ Real.sqrt 2
    nlinarith
  rw [circle_map_of_ge _ _ hge]
  have hb : atan2 (viewVec ⟨((1 : ℝ), (-1 : ℝ)), 1⟩ (0, 0)).2
      (viewVec ⟨((1 : ℝ), (-1 : ℝ)), 1⟩ (0, 0)).1 = -(π / 4) := by
    rw [hv]
    apply atan2_eval (-1) 1 (Real.sqrt 2) (-(π / 4)) hs2pos
    · rw [Real.cos_neg, Real.cos_pi_div_four]
      linear_combination -hs2 / 2
    · rw [Real.sin_neg, Real.sin_pi_div_four]
      linear_combination hs2 / 2
    · linarith [Real.pi_pos]
    · linarith [Real.pi_pos]
  rw [hb, hlen]
  rw [if_pos (by linarith [Real.pi_pos] : -(π / 4) < (0 : ℝ))]
  have hw : Real.arcsin ((Circle.mk ((1 : ℝ), (-1 : ℝ)) 1).radius / Real.sqrt 2) * 2
      = π / 2 := by
    show Real.arcsin ((1 : ℝ) / Real.sqrt 2) * 2 = π / 2
    rw [arcsin_inv_sqrt_two]
    ring
  rw [hw]
  refine congrArg some ?_
  rw [show 2 * π + -(π / 4) = 7 * π / 4 by ring]

theorem seam_mapW :
    Circle.map ⟨((-1 : ℝ), (1 : ℝ)), 1⟩ (0, 0) = some ⟨3 * π / 4, π / 2, true⟩ := by
  have hs2 : Real.sqrt 2 * Real.sqrt 2 = 2 := Real.mul_self_sqrt (by norm_num)
  have hs2pos : (0 : ℝ) < Real.sqrt 2 := Real.sqrt_pos.mpr (by norm_num)
  have hv : viewVec ⟨((-1 : ℝ), (1 : ℝ)), 1⟩ (0, 0) = ((-1 : ℝ), (1 : ℝ)) := by
    unfold viewVec Vec2Z.toR
    simp
  have hlen : Vec2R.len (viewVec ⟨((-1 : ℝ), (1 : ℝ)), 1⟩ (0, 0)) = Real.sqrt 2 := by
    rw [hv]
    unfold Vec2R.len
    norm_num
  have hge : (Circle.mk ((-1 : ℝ), (1 : ℝ)) 1).radius ≤
      Vec2R.len (viewVec ⟨((-1 : ℝ), (1 : ℝ)), 1⟩ (0, 0)) := by
    rw [hlen]
    show (1 : ℝ) ≤ Real.sqrt 2
    nlinarith
  rw [circle_map_of_ge _ _ hge]
  have hb : atan2 (viewVec ⟨((-1 : ℝ), (1 : ℝ)), 1⟩ (0, 0)).2
      (viewVec ⟨((-1 : ℝ), (1 : ℝ)), 1⟩ (0, 0)).1 = 3 * π / 4 := by
    rw [hv]
    apply atan2_eval 1 (-1) (Real.sqrt 2) (3 * π / 4) hs2pos
    · rw [show (3 : ℝ) * π / 4 = π - π / 4 by ring, Real.cos_pi_sub,
        Real.cos_pi_div_four]
      linear_combination hs2 / 2
    · rw [show (3 : ℝ) * π / 4 = π - π / 4 by ring, Real.sin_pi_sub,
        Real.sin_pi_div_four]
      linear_combination -hs2 / 2
    · linarith [Real.pi_pos]
    · linarith [Real.pi_pos]
  rw [hb, hlen]
  rw [if_neg (by linarith [Real.pi_pos] : ¬ ((3 : ℝ) * π / 4 < 0))]
  have hw : Real.arcsin ((Circle.mk ((-1 : ℝ), (1 : ℝ)) 1).radius / Real.sqrt 2) * 2
      = π / 2 := by
    show Real.arcsin ((1 : ℝ) / Real.sqrt 2) * 2 = π / 2
    rw [arcsin_inv_sqrt_two]
    ring
  rw [hw]

theorem seam_mapB :
    Circle.map ⟨((1 : ℝ), (1 : ℝ)), 1⟩ (0, 0) = some ⟨π / 4, π / 2, true⟩ := by
  have hs2 : Real.sqrt 2 * Real.sqrt 2 = 2 := Real.mul_self_sqrt (by norm_num)
  have hs2pos : (0 : ℝ) < Real.sqrt 2 := Real.sqrt_pos.mpr (by norm_num)
  have hv : viewVec ⟨((1 : ℝ), (1 : ℝ)), 1⟩ (0, 0) = ((1 : ℝ), (1 : ℝ)) := by
    unfold viewVec Vec2Z.toR
    simp
  have hlen : Vec2R.len (viewVec ⟨((1 : ℝ), (1 : ℝ)), 1⟩ (0, 0)) = Real.sqrt 2 := by
    rw [hv]
    unfold Vec2R.len
    norm_num
  have hge : (Circle.mk ((1 : ℝ), (1 : ℝ)) 1).radius ≤
      Vec2R.len (viewVec ⟨((1 : ℝ), (1 : ℝ)), 1⟩ (0, 0)) := by
    rw [hlen]
    show (1 : ℝ) ≤ Real.sqrt 2
    nlinarith
  rw [circle_map_of_ge _ _ hge]
  have hb : atan2 (viewVec ⟨((1 : ℝ), (1 : ℝ)), 1⟩ (0, 0)).2
      (viewVec ⟨((1 : ℝ), (1 : ℝ)), 1⟩ (0, 0)).1 = π / 4 := by
    rw [hv]
    apply atan2_eval 1 1 (Real.sqrt 2) (π / 4) hs2pos
    · rw [Real.cos_pi_div_four]
      linear_combination -hs2 / 2
    · rw [Real.sin_pi_div_four]
      linear_combination -hs2 / 2
    · linarith [Real.pi_pos]
    · linarith [Real.pi_pos]
  rw [hb, hlen]
  rw [if_neg (by linarith [Real.pi_pos] : ¬ (π / 4 < (0 : ℝ)))]
  have hw : Real.arcsin ((Circle.mk ((1 : ℝ), (1 : ℝ)) 1).radius / Real.sqrt 2) * 2
      = π / 2 := by
    show Real.arcsin ((1 : ℝ) / Real.sqrt 2) * 2 = π / 2
    rw [arcsin_inv_sqrt_two]
    ring
  rw [hw]

theorem dist_A_W :
    Segment.dist ⟨7 * π / 4, π / 2, true⟩ ⟨3 * π / 4, π / 2, true⟩ = π := by
  show fdist (7 * π / 4) (3 * π / 4) = π
  rw [fdist_eval_lo (7 * π / 4) (3 * π / 4) (by linarith [Real.pi_pos])
    (by linarith [Real.pi_pos])]
  ring

theorem dist_A_B :
    Segment.dist ⟨7 * π / 4, π / 2, true⟩ ⟨π / 4, π / 2, true⟩ = π / 2 := by
  show fdist (7 * π / 4) (π / 4) = π / 2
  rw [fdist_eval_lo (7 * π / 4) (π / 4) (by linarith [Real.pi_pos])
    (by linarith [Real.pi_pos])]
  ring

theorem dist_W_big :
    Segment.dist ⟨3 * π / 4, π / 2, true⟩ ⟨π, 2 * π, true⟩ = π / 4 := by
  show fdist (3 * π / 4) π = π / 4
  rw [fdist_eval_mid (3 * π / 4) π (by linarith [Real.pi_pos])
    (by linarith [Real.pi_pos])]
  ring

theorem seam_nocollide_A_W :
    ¬ Segment.collides ⟨7 * π / 4, π / 2, true⟩ ⟨3 * π / 4, π / 2, true⟩ := by
  unfold Segment.collides
  rw [not_not]
  dsimp only
  rw [dist_A_W, abs_of_pos Real.pi_pos]
  linarith [Real.pi_pos]

theorem seam_collide_A_B :
    Segment.collides ⟨7 * π / 4, π / 2, true⟩ ⟨π / 4, π / 2, true⟩ := by
  unfold Segment.collides
  dsimp only
  rw [dist_A_B, abs_of_pos (by linarith [Real.pi_pos] : (0 : ℝ) < π / 2)]
  intro h
  linarith

theorem seam_step1 :
    Segment.mergeStep (⟨7 * π / 4, π / 2, true⟩, ([] : List Segment))
        ⟨3 * π / 4, π / 2, true⟩
      = (⟨7 * π / 4, π / 2, true⟩, [⟨3 * π / 4, π / 2, true⟩]) := by
  unfold Segment.mergeStep
  dsimp only
  rw [if_neg seam_nocollide_A_W]
  simp

theorem seam_step2 :
    Segment.mergeStep (⟨7 * π / 4, π / 2, true⟩, [(⟨3 * π / 4, π / 2, true⟩ : Segment)])
        ⟨π / 4, π / 2, true⟩
      = (⟨π, 2 * π, true⟩, [⟨3 * π / 4, π / 2, true⟩]) := by
  have hpi := Real.pi_pos
  unfold Segment.mergeStep
  dsimp only
  rw [if_pos seam_collide_A_B]
  have hc1 : ¬ ((π / 4 - π / 2 / 2 > 7 * π / 4 + π / 2 / 2) ∧
      (π / 4 - π / 2 / 2 > 7 * π / 4 - π / 2 / 2) ∧
      (π / 4 + π / 2 / 2 > 7 * π / 4 + π / 2 / 2)) := by
    intro hcon
    linarith [hcon.1]
  have hc2 : (π / 4 - π / 2 / 2 < 7 * π / 4 + π / 2 / 2) ∧
      (π / 4 - π / 2 / 2 < 7 * π / 4 - π / 2 / 2) ∧
      (π / 4 + π / 2 / 2 < 7 * π / 4 + π / 2 / 2) :=
    ⟨by linarith, by linarith, by linarith⟩
  rw [if_neg hc1, if_pos hc2]
  dsimp only
  simp only [Prod.mk.injEq, Segment.mk.injEq]
  exact ⟨⟨by ring, by ring, trivial⟩, trivial⟩

theorem seam_merge :
    Segment.merge ⟨7 * π / 4, π / 2, true⟩
        [(⟨3 * π / 4, π / 2, true⟩ : Segment), ⟨π / 4, π / 2, true⟩]
      = (⟨π, 2 * π, true⟩, [⟨3 * π / 4, π / 2, true⟩]) := by
  unfold Segment.merge
  rw [List.foldl_cons, seam_step1, List.foldl_cons, seam_step2, List.foldl_nil]

theorem seam_mergeLoop :
    mergeLoop [(⟨7 * π / 4, π / 2, true⟩ : Segment), ⟨3 * π / 4, π / 2, true⟩,
        ⟨π / 4, π / 2, true⟩]
      = [⟨π, 2 * π, true⟩, ⟨3 * π / 4, π / 2, true⟩] := by
  rw [mergeLoop_cons, seam_merge]
  rw [mergeLoop_cons]
  rw [show Segment.merge ⟨3 * π / 4, π / 2, true⟩ ([] : List Segment)
      = (⟨3 * π / 4, π / 2, true⟩, ([] : List Segment)) from rfl]
  simp [mergeLoop]

theorem seam_sort1 :
    sortByBisector [(⟨π, 2 * π, true⟩ : Segment), ⟨3 * π / 4, π / 2, true⟩]
      = [⟨3 * π / 4, π / 2, true⟩, ⟨π, 2 * π, true⟩] := by
  unfold sortByBisector
  simp only [List.insertionSort, List.orderedInsert]
  rw [if_neg (by linarith [Real.pi_pos] : ¬ (π ≤ 3 * π / 4))]

theorem seam_prev :
    prevEdges [(⟨3 * π / 4, π / 2, true⟩ : Segment), ⟨π, 2 * π, true⟩] = [0, π] := by
  simp only [prevEdges, List.getLast, List.dropLast, List.map_cons, List.map_nil,
    endEdge]
  simp only [List.cons.injEq]
  refine ⟨by ring, by ring, trivial⟩

theorem seam_bg1 :
    mkBackground 0 ⟨3 * π / 4, π / 2, true⟩ = ⟨π / 4, π / 2, false⟩ := by
  unfold mkBackground startEdge
  dsimp only
  rw [if_neg (by intro hlt; linarith [Real.pi_pos])]
  simp only [Segment.mk.injEq]
  exact ⟨by ring, by ring, trivial⟩

theorem seam_bg2 :
    mkBackground π ⟨π, 2 * π, true⟩ = ⟨π / 2, -π, false⟩ := by
  unfold mkBackground startEdge
  dsimp only
  rw [if_neg (by intro hlt; linarith [Real.pi_pos])]
  simp only [Segment.mk.injEq]
  exact ⟨by ring, by ring, trivial⟩

theorem seam_fill :
    fillBackground [(⟨3 * π / 4, π / 2, true⟩ : Segment), ⟨π, 2 * π, true⟩]
      = [⟨π / 4, π / 2, false⟩, ⟨π / 2, -π, false⟩] := by
  unfold fillBackground
  rw [seam_prev]
  simp only [List.zipWith_cons_cons, List.zipWith_nil_right]
  rw [seam_bg1, seam_bg2]

theorem seam_sort2 :
    sortByBisector [(⟨3 * π / 4, π / 2, true⟩ : Segment), ⟨π, 2 * π, true⟩,
        ⟨π / 4, π / 2, false⟩, ⟨π / 2, -π, false⟩]
      = [⟨π / 4, π / 2, false⟩, ⟨π / 2, -π, false⟩, ⟨3 * π / 4, π / 2, true⟩,
          ⟨π, 2 * π, true⟩] := by
  have hpi := Real.pi_pos
  unfold sortByBisector
  simp only [List.insertionSort, List.orderedInsert]
  rw [if_pos (by linarith : (π / 4 : ℝ) ≤ π / 2)]
  simp only [List.orderedInsert]
  rw [if_neg (by linarith : ¬ (π ≤ π / 4))]
  rw [if_neg (by linarith : ¬ (π ≤ π / 2))]
  simp only [List.orderedInsert]
  rw [if_neg (by linarith : ¬ ((3 : ℝ) * π / 4 ≤ π / 4))]
  rw [if_neg (by linarith : ¬ ((3 : ℝ) * π / 4 ≤ π / 2))]
  rw [if_pos (by linarith : (3 : ℝ) * π / 4 ≤ π)]

/-- C1 (counterexample to the non-overlap half of the claim): the three unit
circles at (1, -1), (-1, 1), (1, 1) seen from (0, 0) are all strictly outside
the viewpoint and all visible, yet the built image contains the distinct
segments (3π/4, π/2, OCCLUDED) and (π, 2π, OCCLUDED), which overlap: the
merged seam segment claims the full 2π width. -/
theorem c1_overlap_counterexample :
    (⟨((1 : ℝ), (-1 : ℝ)), 1⟩ : Circle).radius <
      Vec2R.len (viewVec ⟨((1 : ℝ), (-1 : ℝ)), 1⟩ (0, 0)) ∧
    (⟨((-1 : ℝ), (1 : ℝ)), 1⟩ : Circle).radius <
      Vec2R.len (viewVec ⟨((-1 : ℝ), (1 : ℝ)), 1⟩ (0, 0)) ∧
    (⟨((1 : ℝ), (1 : ℝ)), 1⟩ : Circle).radius <
      Vec2R.len (viewVec ⟨((1 : ℝ), (1 : ℝ)), 1⟩ (0, 0)) ∧
    Image.new (0, 0) [⟨((1 : ℝ), (-1 : ℝ)), 1⟩, ⟨((-1 : ℝ), (1 : ℝ)), 1⟩,
        ⟨((1 : ℝ), (1 : ℝ)), 1⟩]
      = some ⟨[⟨π / 4, π / 2, false⟩, ⟨π / 2, -π, false⟩, ⟨3 * π / 4, π / 2, true⟩,
          ⟨π, 2 * π, true⟩]⟩ ∧
    (⟨3 * π / 4, π / 2, true⟩ : Segment) ∈
      [(⟨π / 4, π / 2, false⟩ : Segment), ⟨π / 2, -π, false⟩, ⟨3 * π / 4, π / 2, true⟩,
        ⟨π, 2 * π, true⟩] ∧
    (⟨π, 2 * π, true⟩ : Segment) ∈
      [(⟨π / 4, π / 2, false⟩ : Segment), ⟨π / 2, -π, false⟩, ⟨3 * π / 4, π / 2, true⟩,
        ⟨π, 2 * π, true⟩] ∧
    (⟨3 * π / 4, π / 2, true⟩ : Segment) ≠ ⟨π, 2 * π, true⟩ ∧
    Segment.overlaps ⟨3 * π / 4, π / 2, true⟩ ⟨π, 2 * π, true⟩ := by
  have hpi := Real.pi_pos
  have hs2 : Real.sqrt 2 * Real.sqrt 2 = 2 := Real.mul_self_sqrt (by norm_num)
  have hout : ∀ x y : ℝ, x * x + y * y = 2 →
      (1 : ℝ) < Vec2R.len (x, y) := by
    intro x y hxy
    unfold Vec2R.len
    rw [hxy]
    nlinarith [Real.sqrt_nonneg (2 : ℝ)]
  have hv1 : viewVec ⟨((1 : ℝ), (-1 : ℝ)), 1⟩ (0, 0) = ((1 : ℝ), (-1 : ℝ)) := by
    unfold viewVec Vec2Z.toR
    simp
  have hv2 : viewVec ⟨((-1 : ℝ), (1 : ℝ)), 1⟩ (0, 0) = ((-1 : ℝ), (1 : ℝ)) := by
    unfold viewVec Vec2Z.toR
    simp
  have hv3 : viewVec ⟨((1 : ℝ), (1 : ℝ)), 1⟩ (0, 0) = ((1 : ℝ), (1 : ℝ)) := by
    unfold viewVec Vec2Z.toR
    simp
  refine ⟨?_, ?_, ?_, ?_, by simp, by simp, ?_, ?_⟩
  · rw [hv1]
    exact hout 1 (-1) (by norm_num)
  · rw [hv2]
    exact hout (-1) 1 (by norm_num)
  · rw [hv3]
    exact hout 1 1 (by norm_num)
  · have hfm : ([(⟨((1 : ℝ), (-1 : ℝ)), 1⟩ : Circle), ⟨((-1 : ℝ), (1 : ℝ)), 1⟩,
        ⟨((1 : ℝ), (1 : ℝ)), 1⟩].filterMap (fun o => Circle.map o (0, 0)))
        = [⟨7 * π / 4, π / 2, true⟩, ⟨3 * π / 4, π / 2, true⟩, ⟨π / 4, π / 2, true⟩] := by
      simp only [List.filterMap_cons, seam_mapA, seam_mapW, seam_mapB,
        List.filterMap_nil]
    rw [image_new_eq, hfm]
    rw [if_neg (by simp)]
    rw [seam_mergeLoop, seam_sort1, seam_fill]
    rw [show [(⟨3 * π / 4, π / 2, true⟩ : Segment), ⟨π, 2 * π, true⟩] ++
        [(⟨π / 4, π / 2, false⟩ : Segment), ⟨π / 2, -π, false⟩]
      = [(⟨3 * π / 4, π / 2, true⟩ : Segment), ⟨π, 2 * π, true⟩,
          ⟨π / 4, π / 2, false⟩, ⟨π / 2, -π, false⟩] from rfl]
    rw [seam_sort2]
  · intro h
    rw [Segment.mk.injEq] at h
    have := h.1
    linarith
  · unfold Segment.overlaps
    dsimp only
    rw [dist_W_big, abs_of_pos (by linarith : (0 : ℝ) < π / 4)]
    linarith

end Homing
